import Mathlib

/-!
Shallow embedding of `src/agents.py` (multi-armed bandit agents).

Machine floats are modelled as elements of a linear ordered field `K`
(instantiated at `ℚ` for executable witnesses and at `ℝ` where the source
uses `exp`, `log`, `sqrt`); the claims under scrutiny all speak about exact
arithmetic.  Mutable numpy arrays of length `N` become Lean lists; numpy
integer indexing (which accepts negative indices, wrapping from the end,
and raises `IndexError` otherwise) becomes `resolveIdx`; a Python call that
raises becomes `none` in an `Option` result.
-/

namespace Bandit

/-- Python/numpy sequence indexing on a container of length `n`:
a non-negative index must be `< n`, a negative index `i` addresses `n + i`,
anything else raises `IndexError` (modelled as `none`). -/
def resolveIdx (n : ℕ) (i : ℤ) : Option ℕ :=
  if 0 ≤ i ∧ i < (n : ℤ) then some i.toNat
  else if -(n : ℤ) ≤ i ∧ i < 0 then some (i + n).toNat
  else none

/-- State of the base class `Agent` (`src/agents.py`, lines 14-34):
`param`/`param_init`/`anneal` scalars, and the per-arm arrays
`t` (pull counts, numpy int zeros) and `Q` (value estimates, numpy float
zeros), both of length `bandit.N`. -/
structure AgentState (K : Type) where
  param : K
  param_init : K
  anneal : K
  t : List ℕ
  Q : List K
deriving DecidableEq

variable {K : Type} [LinearOrderedField K]

/-- Embeds `Agent.__init__(bandit, param, anneal=0.0)`: stores `param`, copies it
to `param_init`, stores `anneal`, and zero-initializes `t` and `Q` with
length `bandit.N`.  The source performs no validation of any kind. -/
def Agent.init (N : ℕ) (param anneal : K) : AgentState K :=
  { param := param
    param_init := param
    anneal := anneal
    t := List.replicate N 0
    Q := List.replicate N 0 }

/-- The annealing assignment at the end of `Agent.update_Q`
(lines 33-34): `if abs(self.anneal) > 0 and self.param != 0:
self.param = max(0, self.param - self.anneal)`. -/
def annealStep (anneal param : K) : K :=
  if |anneal| > 0 ∧ param ≠ 0 then max 0 (param - anneal) else param

/-- Embeds `Agent.update_Q(action, reward)` (lines 26-34): increment
`t[action]`, then `Q[action] += (1/t[action]) * (reward - Q[action])`
using the already-incremented count, then anneal `param`.
Both arrays have length `N`, so the single index resolution against
`t.length` reproduces numpy's bounds check on each access. -/
def updateQ (s : AgentState K) (action : ℤ) (reward : K) :
    Option (AgentState K) :=
  (resolveIdx s.t.length action).map fun a =>
    let ta := s.t.getD a 0 + 1
    { s with
      t := s.t.set a ta
      Q := s.Q.set a (s.Q.getD a 0 + (1 / (ta : K)) * (reward - s.Q.getD a 0))
      param := annealStep s.anneal s.param }

/-- A sequence of `update_Q` calls, aborting at the first raised
`IndexError`. -/
def runUpdates (s : AgentState K) : List (ℤ × K) → Option (AgentState K)
  | [] => some s
  | (a, r) :: rest => (updateQ s a r).bind fun s1 => runUpdates s1 rest

/-- Tail of `np.argmax`: scan the remaining list keeping the index of the
first occurrence of the maximum seen so far (replace only on strict
increase). -/
def argmaxGo : List K → ℕ → ℕ → K → ℕ
  | [], _, bi, _ => bi
  | x :: xs, i, bi, bv =>
    if bv < x then argmaxGo xs (i + 1) i x else argmaxGo xs (i + 1) bi bv

/-- Embeds `np.argmax`: index of the first occurrence of the maximum value
(first-index tie-break).  `np.argmax` on an empty array raises; the agents
only apply it to length-`N` arrays, and we return `0` on `[]`. -/
def argmax : List K → ℕ
  | [] => 0
  | x :: xs => argmaxGo xs 1 0 x

/-- State of `ExploreCommitAgent` (lines 37-64): the base state plus
`final_choice`, initialized to `0` in `__init__`. -/
structure ECState (K : Type) where
  base : AgentState K
  final_choice : ℕ
deriving DecidableEq

/-- Embeds `ExploreCommitAgent.__init__(bandit, m, anneal=0.0)`: sets
`final_choice = 0` and calls `Agent.__init__(bandit, m)` (so `anneal`
defaults to `0` in the super call). -/
def ECAgent.init (N : ℕ) (m : K) : ECState K :=
  { base := Agent.init N m 0, final_choice := 0 }

/-- Embeds `ExploreCommitAgent.get_action(bandit)` (lines 52-64).  With
`t = np.sum(self.t)`: if `t <= self.param * bandit.N` return `t % bandit.N`;
elif `t == self.param * bandit.N + 1` cache `final_choice = np.argmax(self.Q)`
and return it; else return the cached `final_choice`.  The comparisons mix
the integer `t` with the float `param`, hence the casts into `K`.
Returns the (possibly mutated) state together with the chosen action. -/
def ecGetAction (s : ECState K) (N : ℕ) : ECState K × ℕ :=
  if (s.base.t.sum : K) ≤ s.base.param * N then (s, s.base.t.sum % N)
  else if (s.base.t.sum : K) = s.base.param * N + 1 then
    ({ s with final_choice := argmax s.base.Q }, argmax s.base.Q)
  else (s, s.final_choice)

/-- One round of the standard driver loop for ExploreCommit:
`action = agent.get_action(bandit)` then `agent.update_Q(action, reward)`. -/
def ecStep (N : ℕ) (r : K) (s : ECState K) : Option (ECState K) :=
  (updateQ (ecGetAction s N).1.base ((ecGetAction s N).2 : ℤ) r).map
    fun b => { (ecGetAction s N).1 with base := b }

/-- The ExploreCommit agent state after `n` driver rounds from a fresh
agent, with reward `rs i` observed at round `i`. -/
def ecState (N : ℕ) (m : K) (rs : ℕ → K) : ℕ → Option (ECState K)
  | 0 => some (ECAgent.init N m)
  | n + 1 => (ecState N m rs n).bind (ecStep N (rs n))

/-- The action returned by the `(n+1)`-st call to `get_action` in the
standard driver loop (rounds are numbered from `0`). -/
def ecActionAt (N : ℕ) (m : K) (rs : ℕ → K) (n : ℕ) : Option ℕ :=
  (ecState N m rs n).map fun s => (ecGetAction s N).2

/-- State of `FPLAgent` (lines 91-112): base state plus the noise array
`z`, zero-initialized with length `bandit.N`.  `get_action` draws fresh
exponential noise (randomness owned by the caller) and is not needed by
the claims; the overridden `update_Q` is deterministic and embedded
below. -/
structure FPLState (K : Type) where
  base : AgentState K
  z : List K
deriving DecidableEq

/-- Embeds `FPLAgent.__init__(bandit, lam)`: zero `z`, then
`Agent.__init__(bandit, lam)` (anneal defaults to `0`). -/
def FPLAgent.init (N : ℕ) (lam : K) : FPLState K :=
  { base := Agent.init N lam 0, z := List.replicate N 0 }

/-- Embeds `FPLAgent.update_Q(action, reward)` (lines 110-112, overriding the
base rule): `t[action] += 1; Q[action] += reward`.  No running mean, no
annealing, `param` untouched. -/
def fplUpdateQ (s : FPLState K) (action : ℤ) (reward : K) :
    Option (FPLState K) :=
  (resolveIdx s.base.t.length action).map fun a =>
    { s with base :=
      { s.base with
        t := s.base.t.set a (s.base.t.getD a 0 + 1)
        Q := s.base.Q.set a (s.base.Q.getD a 0 + reward) } }

/-- A sequence of FPL `update_Q` calls. -/
def fplRun (s : FPLState K) : List (ℤ × K) → Option (FPLState K)
  | [] => some s
  | (a, r) :: rest => (fplUpdateQ s a r).bind fun s1 => fplRun s1 rest

/-- State of `Exp3Agent` (lines 115-137): base state plus weights `ws`
and probabilities `ps`, both initialized to ones of length `bandit.N`. -/
structure Exp3State (K : Type) where
  base : AgentState K
  ws : List K
  ps : List K
deriving DecidableEq

/-- Embeds `Exp3Agent.__init__(bandit, gamma)`: `ws = np.ones(N)`,
`ps = np.ones(N)`, then `Agent.__init__(bandit, gamma)` (anneal `0`). -/
def Exp3Agent.init (N : ℕ) (gamma : K) : Exp3State K :=
  { base := Agent.init N gamma 0
    ws := List.replicate N 1
    ps := List.replicate N 1 }

/-- The probability recomputation in `Exp3Agent.get_action` (line 130):
`ps = (1 - param) * (ws / np.sum(ws)) + param / bandit.N`, elementwise. -/
def exp3Probs (gamma : K) (N : ℕ) (ws : List K) : List K :=
  ws.map fun w => (1 - gamma) * (w / ws.sum) + gamma / (N : K)

/-- The deterministic state change of `Exp3Agent.get_action(bandit)`
(lines 128-132): recompute `self.ps`.  The subsequent
`np.random.choice(np.arange(bandit.N), p=self.ps)` draws the action from
the caller-owned random source and changes no agent state. -/
def exp3Recompute (s : Exp3State K) (N : ℕ) : Exp3State K :=
  { s with ps := exp3Probs s.base.param N s.ws }

/-- Embeds `Exp3Agent.update_Q(action, reward)` (lines 134-137): first the base
`Agent.update_Q` (which may anneal `param`; the weight update below reads
`self.param` after that call), then
`ws[action] *= np.exp((param * reward) / (ps[action] * len(ps)))`. -/
noncomputable def exp3UpdateQ (s : Exp3State ℝ) (action : ℤ) (reward : ℝ) :
    Option (Exp3State ℝ) :=
  (updateQ s.base action reward).bind fun b =>
    (resolveIdx s.ws.length action).map fun a =>
      { s with
        base := b
        ws := s.ws.set a (s.ws.getD a 0 *
          Real.exp ((b.param * reward) / (s.ps.getD a 0 * (s.ps.length : ℝ)))) }

/-- One round of the standard driver loop for Exp3: `get_action`
(recompute `ps`, sample `a` from it) then `update_Q(a, r)`. -/
noncomputable def exp3Round (N : ℕ) (s : Exp3State ℝ) (a : ℤ) (r : ℝ) :
    Option (Exp3State ℝ) :=
  exp3UpdateQ (exp3Recompute s N) a r

/-- A sequence of Exp3 driver rounds with the sampled actions and
observed rewards given as a list. -/
noncomputable def exp3Run (N : ℕ) (s : Exp3State ℝ) : List (ℤ × ℝ) → Option (Exp3State ℝ)
  | [] => some s
  | (a, r) :: rest => (exp3Round N s a r).bind fun s1 => exp3Run N s1 rest

/-- Embeds `UCBAgent.__init__(bandit, c=1.0)`: just `Agent.__init__(bandit, c)`
(anneal defaults to `0`); UCB adds no fields of its own. -/
def UCBAgent.init (N : ℕ) (c : K) : AgentState K :=
  Agent.init N c 0

/-- Embeds `UCBAgent.get_action(bandit)` (lines 151-162).  With
`t = np.sum(self.t)`: if `t < bandit.N` return `t`; else
`f = 1 + t * log(t)^2` and return
`np.argmax(Q + c * np.sqrt(2 * log(f) * 1./t_arr))` (elementwise over the
arrays `Q` and `t`). -/
noncomputable def ucbGetAction (s : AgentState ℝ) (N : ℕ) : ℕ :=
  let t := s.t.sum
  if t < N then t
  else
    let f : ℝ := 1 + (t : ℝ) * Real.log t ^ 2
    argmax (List.zipWith
      (fun q n => q + s.param * Real.sqrt (2 * Real.log f * (1 / (n : ℝ))))
      s.Q s.t)

/-- The trace of actions chosen by the standard driver loop for UCB:
each round selects `a = get_action(bandit)` and then runs
`update_Q(a, r)` with the next reward from the list. -/
noncomputable def ucbTrace (N : ℕ) : AgentState ℝ → List ℝ → Option (List ℕ)
  | _, [] => some []
  | s, r :: rest =>
    let a := ucbGetAction s N
    (updateQ s (a : ℤ) r).bind fun s1 => (ucbTrace N s1 rest).map (a :: ·)

/-- Embeds `EpsilonGreedyAgent.__init__(bandit, epsilon, anneal=0.0)` (lines
73-74): just the base constructor; both branches of its `get_action` are
driven by the caller-owned random source. -/
def EGAgent.init (N : ℕ) (epsilon anneal : K) : AgentState K :=
  Agent.init N epsilon anneal

/-- Follows the spec's words (§7 error taxonomy), for comparison with the
source constructor: construction raises `InvalidConfig` (modelled as
`none`) when `N < 1` or when the policy parameter is out of its valid
range (gamma outside `[0,1]` for Exp3); otherwise it succeeds. -/
def specExp3Construct (N : ℕ) (gamma : K) : Option (Exp3State K) :=
  if 1 ≤ N ∧ 0 ≤ gamma ∧ gamma ≤ 1 then some (Exp3Agent.init N gamma)
  else none

/-! ### Basic lemmas about indexing and the update rules -/

theorem resolveIdx_natCast {n a : ℕ} (h : a < n) :
    resolveIdx n (a : ℤ) = some a := by
  simp [resolveIdx, Int.ofNat_lt.mpr h]

theorem resolveIdx_lt {n : ℕ} {a : ℤ} {i : ℕ}
    (h : resolveIdx n a = some i) : i < n := by
  unfold resolveIdx at h
  split at h
  · next hc =>
    simp only [Option.some.injEq] at h
    omega
  · split at h
    · next hc =>
      simp only [Option.some.injEq] at h
      omega
    · exact absurd h (by simp)

theorem updateQ_natCast (s : AgentState K) {a : ℕ} (r : K)
    (h : a < s.t.length) :
    updateQ s (a : ℤ) r = some
      { s with
        t := s.t.set a (s.t.getD a 0 + 1)
        Q := s.Q.set a (s.Q.getD a 0 +
          (1 / ((s.t.getD a 0 + 1 : ℕ) : K)) * (r - s.Q.getD a 0))
        param := annealStep s.anneal s.param } := by
  simp [updateQ, resolveIdx_natCast h]

theorem updateQ_some_elim {s s' : AgentState K} {a : ℤ} {r : K}
    (h : updateQ s a r = some s') :
    ∃ i < s.t.length,
      s' = { s with
        t := s.t.set i (s.t.getD i 0 + 1)
        Q := s.Q.set i (s.Q.getD i 0 +
          (1 / ((s.t.getD i 0 + 1 : ℕ) : K)) * (r - s.Q.getD i 0))
        param := annealStep s.anneal s.param } := by
  unfold updateQ at h
  cases hres : resolveIdx s.t.length a with
  | none => rw [hres] at h; exact absurd h (by simp)
  | some i =>
    rw [hres] at h
    simp only [Option.map_some', Option.some.injEq] at h
    exact ⟨i, resolveIdx_lt hres, h.symm⟩

theorem sum_set_succ (l : List ℕ) (i : ℕ) (h : i < l.length) :
    (l.set i (l.getD i 0 + 1)).sum = l.sum + 1 := by
  induction l generalizing i with
  | nil => simp at h
  | cons x xs ih =>
    cases i with
    | zero => simp only [List.set, List.sum_cons, List.getD_cons_zero]; omega
    | succ j =>
      have hj : j < xs.length := by simpa using h
      simp only [List.set, List.sum_cons, List.getD_cons_succ]
      rw [ih j hj]
      omega

theorem getD_set_succ_le (l : List ℕ) (i j : ℕ) :
    l.getD j 0 ≤ (l.set i (l.getD i 0 + 1)).getD j 0 := by
  rcases eq_or_ne i j with rfl | hij
  · rcases Nat.lt_or_ge i l.length with h | h
    · simp [List.getD_eq_getElem?_getD, List.getElem?_set_self h]
    · rw [List.set_eq_of_length_le h]
  · simp [List.getD_eq_getElem?_getD, List.getElem?_set_ne hij]

/-- Structural consequences of one successful base `update_Q` call, for an
arbitrary (possibly negative, numpy-wrapped) action index. -/
theorem updateQ_facts {s s' : AgentState K} {a : ℤ} {r : K}
    (h : updateQ s a r = some s') :
    s'.t.length = s.t.length ∧ s'.Q.length = s.Q.length ∧
    s'.t.sum = s.t.sum + 1 ∧
    s'.param = annealStep s.anneal s.param ∧
    s'.anneal = s.anneal ∧ s'.param_init = s.param_init ∧
    (∀ j, s.t.getD j 0 ≤ s'.t.getD j 0) := by
  obtain ⟨i, hi, rfl⟩ := updateQ_some_elim h
  exact ⟨by simp, by simp, sum_set_succ _ _ hi, rfl, rfl, rfl,
    fun j => getD_set_succ_le _ _ _⟩

/-- Structural consequences of a successful sequence of base `update_Q`
calls: array lengths are preserved, the total pull count grows by the
number of calls, each arm's count is non-decreasing, `anneal` and
`param_init` never change, and `param` evolves by iterating the annealing
assignment once per call. -/
theorem runUpdates_facts {s s' : AgentState K} {l : List (ℤ × K)}
    (h : runUpdates s l = some s') :
    s'.t.length = s.t.length ∧ s'.Q.length = s.Q.length ∧
    s'.t.sum = s.t.sum + l.length ∧
    s'.anneal = s.anneal ∧ s'.param_init = s.param_init ∧
    s'.param = (annealStep s.anneal)^[l.length] s.param ∧
    (∀ j, s.t.getD j 0 ≤ s'.t.getD j 0) := by
  induction l generalizing s with
  | nil =>
    cases h
    exact ⟨rfl, rfl, rfl, rfl, rfl, rfl, fun j => le_rfl⟩
  | cons p rest ih =>
    obtain ⟨a, r⟩ := p
    rcases hu : updateQ s a r with _ | s1
    · rw [runUpdates, hu] at h; exact absurd h (by simp)
    · rw [runUpdates, hu] at h
      simp only [Option.some_bind] at h
      obtain ⟨h1, h2, h3, h4, h5, h6, h7⟩ := updateQ_facts hu
      obtain ⟨g1, g2, g3, g4, g5, g6, g7⟩ := ih h
      refine ⟨g1.trans h1, g2.trans h2, ?_, g4.trans h5, g5.trans h6, ?_, ?_⟩
      · rw [g3, h3, List.length_cons]; ring
      · rw [g6, h5, h4, List.length_cons, Function.iterate_succ_apply]
      · exact fun j => (h7 j).trans (g7 j)

/-- With a strictly positive annealing rate and a non-negative parameter,
the annealing assignment is subtraction floored at zero. -/
theorem annealStep_eq_max {a p : K} (ha : 0 < a) (hp : 0 ≤ p) :
    annealStep a p = max 0 (p - a) := by
  rcases eq_or_ne p 0 with rfl | hp0
  · rw [annealStep, if_neg (by simp), max_eq_left (by linarith)]
  · rw [annealStep, if_pos ⟨abs_pos.mpr ha.ne', hp0⟩]

/-- With annealing disabled (`anneal = 0`, the default for ExploreCommit,
FPL, Exp3 and UCB), the annealing assignment never fires. -/
theorem annealStep_zero (p : K) : annealStep 0 p = p := by
  rw [annealStep, if_neg]
  simp

theorem annealStep_nonneg {a p : K} (hp : 0 ≤ p) : 0 ≤ annealStep a p := by
  rw [annealStep]
  split
  · exact le_max_left 0 _
  · exact hp

theorem annealStep_iterate_nonneg {a p : K} (hp : 0 ≤ p) (k : ℕ) :
    0 ≤ (annealStep a)^[k] p := by
  induction k generalizing p with
  | zero => exact hp
  | succ n ih => rw [Function.iterate_succ_apply]; exact ih (annealStep_nonneg hp)

theorem annealStep_iterate_eq {a : K} (ha : 0 < a) (k : ℕ) :
    ∀ p : K, 0 ≤ p → (annealStep a)^[k] p = max 0 (p - k * a) := by
  induction k with
  | zero => intro p hp; simpa using (max_eq_right hp).symm
  | succ n ih =>
    intro p hp
    rw [Function.iterate_succ_apply, annealStep_eq_max ha hp,
      ih _ (le_max_left 0 _)]
    have hcast : ((n + 1 : ℕ) : K) * a = (n : K) * a + a := by push_cast; ring
    have hna : (0 : K) ≤ (n : K) * a := by positivity
    rcases le_total (p - a) 0 with hpa | hpa
    · rw [max_eq_left hpa, zero_sub, max_eq_left (neg_nonpos.mpr hna),
        max_eq_left (by rw [hcast]; linarith)]
    · rw [max_eq_right hpa]
      congr 1
      push_cast
      ring

theorem argmaxGo_lt (xs : List K) :
    ∀ (i bi : ℕ) (bv : K), bi < i → argmaxGo xs i bi bv < i + xs.length := by
  induction xs with
  | nil => intro i bi bv h; simpa using h
  | cons x xs ih =>
    intro i bi bv h
    simp only [argmaxGo, List.length_cons]
    split
    · have := ih (i + 1) i x (Nat.lt_succ_self i)
      omega
    · have := ih (i + 1) bi bv (Nat.lt_succ_of_lt h)
      omega

theorem argmax_lt_length {l : List K} (h : l ≠ []) : argmax l < l.length := by
  cases l with
  | nil => exact absurd rfl h
  | cons x xs =>
    simp only [argmax, List.length_cons]
    have h1 := argmaxGo_lt (K := K) xs 1 0 x Nat.zero_lt_one
    omega

/-- Invariant of updating one fixed arm `a` repeatedly with the base rule:
the pull count grows by the number of updates, and the value estimate
times the final pull count equals the old estimate times the old count
plus the sum of the new rewards (the running-mean recurrence, stated
multiplicatively to avoid division side conditions). -/
theorem runUpdates_const_arm (a : ℕ) (rs : List K) :
    ∀ s s' : AgentState K, a < s.t.length → a < s.Q.length →
    runUpdates s (rs.map fun r => ((a : ℤ), r)) = some s' →
    s'.t.getD a 0 = s.t.getD a 0 + rs.length ∧
    s'.Q.getD a 0 * ((s.t.getD a 0 + rs.length : ℕ) : K) =
      s.Q.getD a 0 * ((s.t.getD a 0 : ℕ) : K) + rs.sum := by
  induction rs with
  | nil =>
    intro s s' _ _ h
    cases h
    exact ⟨by simp, by simp⟩
  | cons r rest ih =>
    intro s s' ha haQ h
    rw [List.map_cons, runUpdates, updateQ_natCast s r ha,
      Option.some_bind] at h
    set n := s.t.getD a 0 with hn
    set q := s.Q.getD a 0 with hq
    have ht1 : (s.t.set a (n + 1)).getD a 0 = n + 1 := by
      simp [List.getD_eq_getElem?_getD, List.getElem?_set_self ha]
    have hQ1 : (s.Q.set a (q + (1 / ((n + 1 : ℕ) : K)) * (r - q))).getD a 0 =
        q + (1 / ((n + 1 : ℕ) : K)) * (r - q) := by
      simp [List.getD_eq_getElem?_getD, List.getElem?_set_self haQ]
    obtain ⟨ih1, ih2⟩ := ih _ s' (by simpa using ha) (by simpa using haQ) h
    simp only [ht1, hQ1] at ih1 ih2
    have hcast : ((n + 1 : ℕ) : K) ≠ 0 :=
      Nat.cast_ne_zero.mpr (Nat.succ_ne_zero n)
    constructor
    · rw [ih1]
      simp only [List.length_cons]
      omega
    · have key : (q + (1 / ((n + 1 : ℕ) : K)) * (r - q)) * ((n + 1 : ℕ) : K) =
          q * ((n : ℕ) : K) + r := by
        field_simp
        ring
      have hlen : (n + 1 + rest.length : ℕ) = (n + (r :: rest).length : ℕ) := by
        simp only [List.length_cons]
        omega
      rw [← hlen, ih2, key, List.sum_cons]
      ring

/-- C4: for every agent using the default update rule, after any sequence
of `k ≥ 1` updates to the same arm `a` with rewards `r_1..r_k` (starting
from a fresh arm: zero pull count and zero estimate, as at construction),
the value estimate of `a` equals the arithmetic mean of `r_1..r_k`
exactly, in exact arithmetic. -/
theorem updateQ_running_mean (s : AgentState K) (a : ℕ) (rs : List K)
    (s' : AgentState K) (ha : a < s.t.length) (haQ : a < s.Q.length)
    (ht0 : s.t.getD a 0 = 0) (hQ0 : s.Q.getD a 0 = 0) (hne : rs ≠ [])
    (h : runUpdates s (rs.map fun r => ((a : ℤ), r)) = some s') :
    s'.Q.getD a 0 = rs.sum / ((rs.length : ℕ) : K) := by
  obtain ⟨-, h2⟩ := runUpdates_const_arm a rs s s' ha haQ h
  rw [ht0, hQ0] at h2
  simp only [Nat.zero_add, Nat.cast_zero, mul_zero, zero_add] at h2
  have hlen : ((rs.length : ℕ) : K) ≠ 0 := by
    have : rs.length ≠ 0 := fun hc => hne (List.eq_nil_of_length_eq_zero hc)
    exact_mod_cast this
  rw [eq_div_iff hlen, h2]

/-- Witness for C4 at a concrete input: two updates of arm `0` with
rewards `3` and `5` from a fresh two-armed agent leave the estimate at
their mean `4`. -/
theorem updateQ_running_mean_witness :
    (0 : ℕ) < (Agent.init 2 (0 : ℚ) 0).t.length ∧
    (⟨0, 0, 0, [2, 0], [4, 0]⟩ : AgentState ℚ).Q.getD 0 0 =
      ([(3 : ℚ), 5].sum) / ((([(3 : ℚ), 5].length : ℕ)) : ℚ) := by
  have hrun : runUpdates (Agent.init 2 (0 : ℚ) 0)
      ([(3 : ℚ), 5].map fun r => ((0 : ℤ), r)) =
      some ⟨0, 0, 0, [2, 0], [4, 0]⟩ := by
    norm_num [runUpdates, updateQ, resolveIdx, annealStep, Agent.init,
      List.replicate, List.set, List.getD]
  exact ⟨by norm_num [Agent.init],
    updateQ_running_mean (Agent.init 2 (0 : ℚ) 0) 0 [3, 5] _
      (by norm_num [Agent.init]) (by norm_num [Agent.init])
      (by norm_num [Agent.init]) (by norm_num [Agent.init])
      (by simp) hrun⟩

/-- C8: for every agent with the default update rule, non-negative
annealing rate and non-negative parameter, the parameter never becomes
negative under any sequence of updates; and when the rate is strictly
positive and the parameter still has its construction value `param_init`,
the parameter is exactly `0` after `ceil(param_init / annealRate)`
updates, in exact arithmetic. -/
theorem anneal_param_floor [FloorSemiring K]
    (s : AgentState K) (l : List (ℤ × K)) (s' : AgentState K)
    (hp : 0 ≤ s.param) (ha : 0 ≤ s.anneal)
    (h : runUpdates s l = some s') :
    0 ≤ s'.param ∧
    (0 < s.anneal → s.param = s.param_init →
      l.length = ⌈s.param_init / s.anneal⌉₊ → s'.param = 0) := by
  obtain ⟨-, -, -, -, -, h6, -⟩ := runUpdates_facts h
  constructor
  · rw [h6]
    exact annealStep_iterate_nonneg hp _
  · intro hapos hinit hlen
    rw [h6, hlen, ← hinit, annealStep_iterate_eq hapos _ _ hp]
    have hle : s.param ≤ (⌈s.param / s.anneal⌉₊ : K) * s.anneal :=
      (div_le_iff₀ hapos).mp (Nat.le_ceil _)
    rw [max_eq_left (by linarith)]

/-- Witness for C8 at a concrete input: `param_init = 5/2`, rate `1`,
`ceil(5/2) = 3` updates drive `param` to exactly `0`. -/
theorem anneal_param_floor_witness :
    (0 : ℚ) ≤ (Agent.init 2 (5/2 : ℚ) 1).param ∧
    (⟨0, 5/2, 1, [2, 1], [0, 0]⟩ : AgentState ℚ).param = 0 := by
  have hrun : runUpdates (Agent.init 2 (5/2 : ℚ) 1)
      [((0 : ℤ), (0 : ℚ)), ((1 : ℤ), 0), ((0 : ℤ), 0)] =
      some ⟨0, 5/2, 1, [2, 1], [0, 0]⟩ := by
    norm_num [runUpdates, updateQ, resolveIdx, annealStep, Agent.init,
      List.replicate, List.set, List.getD]
  have hlen : ([((0 : ℤ), (0 : ℚ)), ((1 : ℤ), 0), ((0 : ℤ), 0)]).length =
      ⌈(Agent.init 2 (5/2 : ℚ) 1).param_init /
        (Agent.init 2 (5/2 : ℚ) 1).anneal⌉₊ := by
    show 3 = ⌈(5/2 : ℚ) / 1⌉₊
    rw [show (5/2 : ℚ) / 1 = 5/2 by norm_num, eq_comm,
      Nat.ceil_eq_iff (by norm_num)]
    norm_num
  have h := anneal_param_floor (Agent.init 2 (5/2 : ℚ) 1) _ _
    (by norm_num [Agent.init]) (by norm_num [Agent.init]) hrun
  exact ⟨by norm_num [Agent.init],
    h.2 (by norm_num [Agent.init]) (by norm_num [Agent.init]) hlen⟩

/-- C2, counterexample: at `gamma = 2` (outside `[0,1]`) the spec demands
an `InvalidConfig` raise, but `Exp3Agent.__init__` performs no validation
and returns a normally initialized agent; likewise `Agent.__init__`
accepts `N = 0 < 1` and returns empty arrays instead of raising. -/
theorem construction_no_invalidConfig :
    specExp3Construct 3 (2 : ℚ) = none ∧
    Exp3Agent.init 3 (2 : ℚ) =
      ⟨⟨2, 2, 0, [0, 0, 0], [0, 0, 0]⟩, [1, 1, 1], [1, 1, 1]⟩ ∧
    Agent.init 0 (1 : ℚ) 0 = ⟨1, 1, 0, [], []⟩ := by
  refine ⟨?_, ?_, rfl⟩
  · rw [specExp3Construct, if_neg (by norm_num)]
  · simp [Exp3Agent.init, Agent.init, List.replicate]

/-- C2 (amended): construction never raises — there is no validation of
`N` or of any policy parameter; for every arm count and every parameter
value each constructor succeeds, with `pullCounts` (`t`) and
`valueEstimate` (`Q`) initialized to zero vectors of length `N` and the
auxiliary per-policy state initialized as in the source. -/
theorem construction_total_zero_init (N : ℕ) (p an m gamma lam c eps : K) :
    (Agent.init N p an).t = List.replicate N 0 ∧
    (Agent.init N p an).Q = List.replicate N 0 ∧
    (Agent.init N p an).param = p ∧
    (Agent.init N p an).param_init = p ∧
    (ECAgent.init N m).base = Agent.init N m 0 ∧
    (ECAgent.init N m).final_choice = 0 ∧
    EGAgent.init N eps an = Agent.init N eps an ∧
    (FPLAgent.init N lam).base = Agent.init N lam 0 ∧
    (FPLAgent.init N lam).z = List.replicate N 0 ∧
    (Exp3Agent.init N gamma).base = Agent.init N gamma 0 ∧
    (Exp3Agent.init N gamma).ws = List.replicate N 1 ∧
    (Exp3Agent.init N gamma).ps = List.replicate N 1 ∧
    UCBAgent.init N c = Agent.init N c 0 :=
  ⟨rfl, rfl, rfl, rfl, rfl, rfl, rfl, rfl, rfl, rfl, rfl, rfl, rfl⟩

theorem resolveIdx_eq_none_iff (n : ℕ) (a : ℤ) :
    resolveIdx n a = none ↔ a < -(n : ℤ) ∨ (n : ℤ) ≤ a := by
  unfold resolveIdx
  split
  · next h => simp only [reduceCtorEq, false_iff]; omega
  · split
    · next h => simp only [reduceCtorEq, false_iff]; omega
    · next h1 h2 => simp only [true_iff]; omega

/-- C3, counterexample: `update(-1, 5)` on a fresh two-armed agent does
not raise, although `-1 ∉ [0, N)`: numpy indexing wraps the negative
index and the call updates arm `N - 1 = 1`. -/
theorem update_negative_index_no_error :
    updateQ (Agent.init 2 (0 : ℚ) 0) (-1) 5 =
      some ⟨0, 0, 0, [0, 1], [0, 5]⟩ := by
  norm_num [updateQ, resolveIdx, annealStep, Agent.init, List.replicate,
    List.set, List.getD]

/-- C3 (amended): for the base, FPL and Exp3 update rules, `update`
raises an index error if and only if `action` is outside `[-N, N)`
(numpy indexing accepts negative indices down to `-N`, wrapping to
`N + action`; the spec's `[0, N)` misses the wrapped negatives). -/
theorem update_index_error_iff (s : AgentState K) (f : FPLState K)
    (e : Exp3State ℝ) (a : ℤ) (r : K) (re : ℝ)
    (he : e.ws.length = e.base.t.length) :
    (updateQ s a r = none ↔
      a < -(s.t.length : ℤ) ∨ (s.t.length : ℤ) ≤ a) ∧
    (fplUpdateQ f a r = none ↔
      a < -(f.base.t.length : ℤ) ∨ (f.base.t.length : ℤ) ≤ a) ∧
    (exp3UpdateQ e a re = none ↔
      a < -(e.base.t.length : ℤ) ∨ (e.base.t.length : ℤ) ≤ a) := by
  refine ⟨?_, ?_, ?_⟩
  · rw [updateQ, Option.map_eq_none', resolveIdx_eq_none_iff]
  · rw [fplUpdateQ, Option.map_eq_none', resolveIdx_eq_none_iff]
  · rw [exp3UpdateQ]
    rcases hb : updateQ e.base a re with _ | b
    · have hbC : a < -(e.base.t.length : ℤ) ∨ (e.base.t.length : ℤ) ≤ a := by
        rw [updateQ, Option.map_eq_none', resolveIdx_eq_none_iff] at hb
        exact hb
      rw [Option.none_bind]
      exact ⟨fun _ => hbC, fun _ => rfl⟩
    · rw [Option.some_bind, Option.map_eq_none', resolveIdx_eq_none_iff, he]

/-- Witness for C3 at a concrete input: on a fresh two-armed base agent
(and fresh FPL/Exp3 agents), `update(5, r)` raises and `update(1, r)`
does not. -/
theorem update_index_error_iff_witness :
    (updateQ (Agent.init 2 (0 : ℚ) 0) 5 1 = none ↔
      (5 : ℤ) < -(2 : ℤ) ∨ (2 : ℤ) ≤ 5) ∧
    (Exp3Agent.init 2 (0 : ℝ)).ws.length =
      (Exp3Agent.init 2 (0 : ℝ)).base.t.length := by
  have h := update_index_error_iff (Agent.init 2 (0 : ℚ) 0)
    (FPLAgent.init 2 (0 : ℚ)) (Exp3Agent.init 2 (0 : ℝ)) 5 1 1 (by simp
      [Exp3Agent.init, Agent.init])
  exact ⟨by simpa [Agent.init] using h.1, by simp [Exp3Agent.init, Agent.init]⟩

theorem fplUpdateQ_natCast (s : FPLState K) {a : ℕ} (r : K)
    (h : a < s.base.t.length) :
    fplUpdateQ s (a : ℤ) r = some
      { s with base :=
        { s.base with
          t := s.base.t.set a (s.base.t.getD a 0 + 1)
          Q := s.base.Q.set a (s.base.Q.getD a 0 + r) } } := by
  simp [fplUpdateQ, resolveIdx_natCast h]

/-- Invariant of repeatedly updating one fixed arm `a` with FPL's
overridden rule: pull count grows by the number of calls, the estimate
grows by the plain sum of rewards, and `param` and the noise array are
untouched. -/
theorem fplRun_const_arm (a : ℕ) (rs : List K) :
    ∀ s s' : FPLState K, a < s.base.t.length → a < s.base.Q.length →
    fplRun s (rs.map fun r => ((a : ℤ), r)) = some s' →
    s'.base.t.getD a 0 = s.base.t.getD a 0 + rs.length ∧
    s'.base.Q.getD a 0 = s.base.Q.getD a 0 + rs.sum ∧
    s'.base.param = s.base.param ∧ s'.z = s.z := by
  induction rs with
  | nil =>
    intro s s' _ _ h
    cases h
    exact ⟨by simp, by simp, rfl, rfl⟩
  | cons r rest ih =>
    intro s s' ha haQ h
    rw [List.map_cons, fplRun, fplUpdateQ_natCast s r ha,
      Option.some_bind] at h
    have ht1 : ((s.base.t.set a (s.base.t.getD a 0 + 1)).getD a 0) =
        s.base.t.getD a 0 + 1 := by
      simp [List.getD_eq_getElem?_getD, List.getElem?_set_self ha]
    have hQ1 : ((s.base.Q.set a (s.base.Q.getD a 0 + r)).getD a 0) =
        s.base.Q.getD a 0 + r := by
      simp [List.getD_eq_getElem?_getD, List.getElem?_set_self haQ]
    obtain ⟨ih1, ih2, ih3, ih4⟩ := ih _ s' (by simpa using ha)
      (by simpa using haQ) h
    simp only [ht1, hQ1] at ih1 ih2
    refine ⟨?_, ?_, ih3, ih4⟩
    · rw [ih1, List.length_cons]; omega
    · rw [ih2, List.sum_cons]; ring

/-- C5: for `FPLAgent`, after any sequence of `k` updates to one arm `a`
with rewards `r_1..r_k` (the arm fresh as at construction, no other
updates to it), the value estimate of `a` equals the plain sum of
`r_1..r_k` (not the mean); the overridden update grows `pullCounts[a]` by
exactly one per call and never changes `param`. -/
theorem fpl_accumulates_sum (s : FPLState K) (a : ℕ) (rs : List K)
    (s' : FPLState K) (ha : a < s.base.t.length) (haQ : a < s.base.Q.length)
    (hQ0 : s.base.Q.getD a 0 = 0)
    (h : fplRun s (rs.map fun r => ((a : ℤ), r)) = some s') :
    s'.base.Q.getD a 0 = rs.sum ∧
    s'.base.t.getD a 0 = s.base.t.getD a 0 + rs.length ∧
    s'.base.param = s.base.param := by
  obtain ⟨h1, h2, h3, -⟩ := fplRun_const_arm a rs s s' ha haQ h
  rw [hQ0, zero_add] at h2
  exact ⟨h2, h1, h3⟩

/-- Witness for C5 at a concrete input: two FPL updates of arm `1` with
rewards `3` and `5` leave the estimate at their sum `8`. -/
theorem fpl_accumulates_sum_witness :
    (⟨⟨1, 1, 0, [0, 2], [0, 8]⟩, [0, 0]⟩ : FPLState ℚ).base.Q.getD 1 0 =
      ([(3 : ℚ), 5]).sum ∧
    (⟨⟨1, 1, 0, [0, 2], [0, 8]⟩, [0, 0]⟩ : FPLState ℚ).base.param =
      (FPLAgent.init 2 (1 : ℚ)).base.param := by
  have hrun : fplRun (FPLAgent.init 2 (1 : ℚ))
      ([(3 : ℚ), 5].map fun r => ((1 : ℤ), r)) =
      some ⟨⟨1, 1, 0, [0, 2], [0, 8]⟩, [0, 0]⟩ := by
    norm_num [fplRun, fplUpdateQ, resolveIdx, FPLAgent.init, Agent.init,
      List.replicate, List.set, List.getD]
  have h := fpl_accumulates_sum (FPLAgent.init 2 (1 : ℚ)) 1 [3, 5] _
    (by norm_num [FPLAgent.init, Agent.init])
    (by norm_num [FPLAgent.init, Agent.init])
    (by norm_num [FPLAgent.init, Agent.init]) hrun
  exact ⟨h.1, h.2.2⟩

theorem sum_map_affine (c d : K) (l : List K) :
    (l.map fun w => c * w + d).sum = c * l.sum + l.length * d := by
  induction l with
  | nil => simp
  | cons x xs ih =>
    simp only [List.map_cons, List.sum_cons, List.length_cons, ih]
    push_cast
    ring

theorem exp3Probs_sum (gamma : K) (N : ℕ) (ws : List K)
    (hS : ws.sum ≠ 0) (hlen : ws.length = N) (hN : 1 ≤ N) :
    (exp3Probs gamma N ws).sum = 1 := by
  have hfun : (fun w => (1 - gamma) * (w / ws.sum) + gamma / (N : K)) =
      fun w => ((1 - gamma) / ws.sum) * w + gamma / (N : K) := by
    funext w
    ring
  have hNK : ((N : ℕ) : K) ≠ 0 := Nat.cast_ne_zero.mpr (by omega)
  rw [exp3Probs, hfun, sum_map_affine, hlen]
  field_simp

/-- C6: for `Exp3Agent`, after any call to `selectAction`, the
recomputed probabilities `(1-gamma)*ws[a]/sum(ws) + gamma/N` sum to
exactly `1` in exact arithmetic, for every `gamma` in `[0,1]` and every
vector of strictly positive weights. -/
theorem exp3_probs_sum_one (s : Exp3State K) (N : ℕ)
    (hlen : s.ws.length = N) (hN : 1 ≤ N)
    (hg0 : 0 ≤ s.base.param) (hg1 : s.base.param ≤ 1)
    (hw : ∀ w ∈ s.ws, 0 < w) :
    ((exp3Recompute s N).ps).sum = 1 := by
  have hne : s.ws ≠ [] := by
    intro hc
    rw [hc] at hlen
    simp only [List.length_nil] at hlen
    omega
  have hS : 0 < s.ws.sum := List.sum_pos _ hw hne
  exact exp3Probs_sum s.base.param N s.ws hS.ne' hlen hN

/-- Witness for C6 at a concrete input: a fresh two-armed Exp3 agent with
`gamma = 1/2`. -/
theorem exp3_probs_sum_one_witness :
    (0 : ℚ) ≤ (Exp3Agent.init 2 (1/2 : ℚ)).base.param ∧
    ((exp3Recompute (Exp3Agent.init 2 (1/2 : ℚ)) 2).ps).sum = 1 :=
  ⟨by norm_num [Exp3Agent.init, Agent.init],
    exp3_probs_sum_one (Exp3Agent.init 2 (1/2 : ℚ)) 2
      (by norm_num [Exp3Agent.init, Agent.init, List.replicate])
      (by norm_num)
      (by norm_num [Exp3Agent.init, Agent.init])
      (by norm_num [Exp3Agent.init, Agent.init])
      (by intro w hwmem
          rw [Exp3Agent.init] at hwmem
          simp only [List.eq_of_mem_replicate hwmem]
          norm_num)⟩

/-- One Exp3 driver round (probability recomputation followed by the
exponential weight update) preserves strict positivity of all weights
and their number: the updated entry is an old entry times `exp(..) > 0`. -/
theorem exp3Round_pos (N : ℕ) {s s' : Exp3State ℝ} {a : ℤ} {r : ℝ}
    (h : exp3Round N s a r = some s') (hw : ∀ w ∈ s.ws, 0 < w) :
    s'.ws.length = s.ws.length ∧ (∀ w ∈ s'.ws, 0 < w) := by
  rw [exp3Round, exp3UpdateQ] at h
  rcases hb : updateQ (exp3Recompute s N).base a r with _ | b
  · rw [hb, Option.none_bind] at h
    exact absurd h (by simp)
  · rw [hb, Option.some_bind] at h
    rcases hres : resolveIdx (exp3Recompute s N).ws.length a with _ | i
    · rw [hres] at h
      exact absurd h (by simp)
    · rw [hres] at h
      simp only [Option.map_some', Option.some.injEq] at h
      have hi : i < s.ws.length := resolveIdx_lt hres
      have hws : s'.ws = s.ws.set i (s.ws.getD i 0 *
          Real.exp ((b.param * r) /
            ((exp3Recompute s N).ps.getD i 0 *
              ((exp3Recompute s N).ps.length : ℝ)))) := by
        rw [← h]
        simp [exp3Recompute]
      constructor
      · rw [hws, List.length_set]
      · intro w hwmem
        rw [hws] at hwmem
        rcases List.mem_or_eq_of_mem_set hwmem with hmem | hweq
        · exact hw _ hmem
        · rw [hweq]
          have hmem0 : s.ws.getD i 0 ∈ s.ws := by
            rw [List.getD_eq_getElem s.ws 0 hi]
            exact List.getElem_mem hi
          exact mul_pos (hw _ hmem0) (Real.exp_pos _)

theorem exp3Run_pos (N : ℕ) (l : List (ℤ × ℝ)) :
    ∀ s s' : Exp3State ℝ, (∀ w ∈ s.ws, 0 < w) →
    exp3Run N s l = some s' →
    s'.ws.length = s.ws.length ∧ (∀ w ∈ s'.ws, 0 < w) := by
  induction l with
  | nil =>
    intro s s' hw h
    cases h
    exact ⟨rfl, hw⟩
  | cons p rest ih =>
    intro s s' hw h
    obtain ⟨a, r⟩ := p
    rcases h1 : exp3Round N s a r with _ | s1
    · rw [exp3Run, h1, Option.none_bind] at h
      exact absurd h (by simp)
    · rw [exp3Run, h1, Option.some_bind] at h
      obtain ⟨hlen1, hw1⟩ := exp3Round_pos N h1 hw
      obtain ⟨hlen2, hw2⟩ := ih s1 s' hw1 h
      exact ⟨hlen2.trans hlen1, hw2⟩

/-- C10: for `Exp3Agent`, every weight is strictly positive after
construction and stays strictly positive after every driver round (the
update multiplies one weight by a real exponential, which is positive),
so the weight sum is strictly positive and the division by `sum(ws)` in
the probability recomputation inside `selectAction` is never a division
by zero. -/
theorem exp3_weights_positive (N : ℕ) (gamma : ℝ) (l : List (ℤ × ℝ))
    (s' : Exp3State ℝ) (hN : 1 ≤ N)
    (h : exp3Run N (Exp3Agent.init N gamma) l = some s') :
    (∀ w ∈ s'.ws, 0 < w) ∧ 0 < s'.ws.sum ∧ s'.ws.sum ≠ 0 := by
  have hw0 : ∀ w ∈ (Exp3Agent.init N gamma).ws, 0 < w := by
    intro w hwmem
    rw [Exp3Agent.init] at hwmem
    simp only [List.eq_of_mem_replicate hwmem]
    norm_num
  obtain ⟨hlen, hw⟩ := exp3Run_pos N l _ s' hw0 h
  have hlenN : (Exp3Agent.init N gamma).ws.length = N := by
    simp [Exp3Agent.init]
  have hne : s'.ws ≠ [] := by
    have hsl : s'.ws.length = N := hlen.trans hlenN
    intro hc
    rw [hc] at hsl
    simp only [List.length_nil] at hsl
    omega
  have hpos := List.sum_pos _ hw hne
  exact ⟨hw, hpos, hpos.ne'⟩

/-- Witness for C10 at a concrete input: a fresh one-armed Exp3 agent. -/
theorem exp3_weights_positive_witness :
    (∀ w ∈ (Exp3Agent.init 1 (0 : ℝ)).ws, 0 < w) ∧
    0 < (Exp3Agent.init 1 (0 : ℝ)).ws.sum ∧
    (Exp3Agent.init 1 (0 : ℝ)).ws.sum ≠ 0 :=
  exp3_weights_positive 1 0 [] (Exp3Agent.init 1 0) (by norm_num) rfl

theorem fplUpdateQ_some_elim {f f' : FPLState K} {a : ℤ} {r : K}
    (h : fplUpdateQ f a r = some f') :
    ∃ i < f.base.t.length, f' = { f with base :=
      { f.base with
        t := f.base.t.set i (f.base.t.getD i 0 + 1)
        Q := f.base.Q.set i (f.base.Q.getD i 0 + r) } } := by
  unfold fplUpdateQ at h
  cases hres : resolveIdx f.base.t.length a with
  | none => rw [hres] at h; exact absurd h (by simp)
  | some i =>
    rw [hres] at h
    simp only [Option.map_some', Option.some.injEq] at h
    exact ⟨i, resolveIdx_lt hres, h.symm⟩

theorem fplRun_facts {f f' : FPLState K} {l : List (ℤ × K)}
    (h : fplRun f l = some f') :
    f'.base.t.length = f.base.t.length ∧
    f'.base.t.sum = f.base.t.sum + l.length ∧
    (∀ j, f.base.t.getD j 0 ≤ f'.base.t.getD j 0) := by
  induction l generalizing f with
  | nil =>
    cases h
    exact ⟨rfl, rfl, fun j => le_rfl⟩
  | cons p rest ih =>
    obtain ⟨a, r⟩ := p
    rcases hu : fplUpdateQ f a r with _ | f1
    · rw [fplRun, hu, Option.none_bind] at h
      exact absurd h (by simp)
    · rw [fplRun, hu, Option.some_bind] at h
      obtain ⟨i, hi, rfl⟩ := fplUpdateQ_some_elim hu
      obtain ⟨g1, g2, g3⟩ := ih h
      refine ⟨g1.trans (by simp), ?_, ?_⟩
      · rw [g2]
        simp only [List.length_cons, sum_set_succ _ _ hi]
        ring
      · exact fun j => (getD_set_succ_le _ _ _).trans (g3 j)

theorem exp3UpdateQ_base {e e' : Exp3State ℝ} {a : ℤ} {r : ℝ}
    (h : exp3UpdateQ e a r = some e') :
    ∃ b, updateQ e.base a r = some b ∧ e'.base = b := by
  rw [exp3UpdateQ] at h
  rcases hb : updateQ e.base a r with _ | b
  · rw [hb, Option.none_bind] at h
    exact absurd h (by simp)
  · rw [hb, Option.some_bind] at h
    rcases hres : resolveIdx e.ws.length a with _ | i
    · rw [hres] at h
      exact absurd h (by simp)
    · rw [hres] at h
      simp only [Option.map_some', Option.some.injEq] at h
      exact ⟨b, rfl, by rw [← h]⟩

theorem exp3Run_facts (N : ℕ) (l : List (ℤ × ℝ)) :
    ∀ e e' : Exp3State ℝ, exp3Run N e l = some e' →
    e'.base.t.length = e.base.t.length ∧
    e'.base.t.sum = e.base.t.sum + l.length ∧
    (∀ j, e.base.t.getD j 0 ≤ e'.base.t.getD j 0) := by
  induction l with
  | nil =>
    intro e e' h
    cases h
    exact ⟨rfl, rfl, fun j => le_rfl⟩
  | cons p rest ih =>
    intro e e' h
    obtain ⟨a, r⟩ := p
    rcases h1 : exp3Round N e a r with _ | e1
    · rw [exp3Run, h1, Option.none_bind] at h
      exact absurd h (by simp)
    · rw [exp3Run, h1, Option.some_bind] at h
      obtain ⟨b, hb, hbase⟩ := exp3UpdateQ_base h1
      have hrec : (exp3Recompute e N).base = e.base := rfl
      rw [hrec] at hb
      obtain ⟨u1, -, u3, -, -, -, u7⟩ := updateQ_facts hb
      obtain ⟨g1, g2, g3⟩ := ih e1 e' h
      rw [hbase] at g1 g2 g3
      refine ⟨g1.trans u1, ?_, fun j => (u7 j).trans (g3 j)⟩
      rw [g2, u3, List.length_cons]
      ring

/-- C9: every update — the base rule, FPL's override and Exp3's override
— increments `pullCounts[action]` by exactly one and leaves every other
entry unchanged (the new count array is `set action (old+1)`); hence over
any successful run of update calls the total pull count grows by exactly
the number of calls (so it always equals the number of calls made on a
fresh agent), and each entry, a natural number, is non-negative and
non-decreasing. -/
theorem pullCounts_increment_invariant (N : ℕ) :
    (∀ (s s' : AgentState K) (a : ℕ) (r : K), a < s.t.length →
      updateQ s (a : ℤ) r = some s' →
      s'.t = s.t.set a (s.t.getD a 0 + 1)) ∧
    (∀ (f f' : FPLState K) (a : ℕ) (r : K), a < f.base.t.length →
      fplUpdateQ f (a : ℤ) r = some f' →
      f'.base.t = f.base.t.set a (f.base.t.getD a 0 + 1)) ∧
    (∀ (e e' : Exp3State ℝ) (a : ℕ) (r : ℝ), a < e.base.t.length →
      a < e.ws.length → exp3UpdateQ e (a : ℤ) r = some e' →
      e'.base.t = e.base.t.set a (e.base.t.getD a 0 + 1)) ∧
    (∀ (s s' : AgentState K) (l : List (ℤ × K)),
      runUpdates s l = some s' →
      s'.t.sum = s.t.sum + l.length ∧
      ∀ j, s.t.getD j 0 ≤ s'.t.getD j 0) ∧
    (∀ (f f' : FPLState K) (l : List (ℤ × K)), fplRun f l = some f' →
      f'.base.t.sum = f.base.t.sum + l.length ∧
      ∀ j, f.base.t.getD j 0 ≤ f'.base.t.getD j 0) ∧
    (∀ (e e' : Exp3State ℝ) (l : List (ℤ × ℝ)), exp3Run N e l = some e' →
      e'.base.t.sum = e.base.t.sum + l.length ∧
      ∀ j, e.base.t.getD j 0 ≤ e'.base.t.getD j 0) := by
  refine ⟨?_, ?_, ?_, ?_, ?_, ?_⟩
  · intro s s' a r ha hu
    rw [updateQ_natCast s r ha, Option.some.injEq] at hu
    rw [← hu]
  · intro f f' a r ha hu
    rw [fplUpdateQ_natCast f r ha, Option.some.injEq] at hu
    rw [← hu]
  · intro e e' a r ha hw hu
    rw [exp3UpdateQ, updateQ_natCast e.base r ha, Option.some_bind,
      resolveIdx_natCast hw, Option.map_some', Option.some.injEq] at hu
    rw [← hu]
  · intro s s' l h
    obtain ⟨-, -, h3, -, -, -, h7⟩ := runUpdates_facts h
    exact ⟨h3, h7⟩
  · intro f f' l h
    obtain ⟨-, h2, h3⟩ := fplRun_facts h
    exact ⟨h2, h3⟩
  · intro e e' l h
    obtain ⟨-, h2, h3⟩ := exp3Run_facts N l e e' h
    exact ⟨h2, h3⟩

/-- Witness for C9 at a concrete input: one base update of arm `0` on a
fresh two-armed agent bumps the count array to `[1, 0]`, and a two-call
run has total pull count `2`. -/
theorem pullCounts_increment_invariant_witness :
    (⟨0, 0, 0, [1, 0], [3, 0]⟩ : AgentState ℚ).t =
      (Agent.init 2 (0 : ℚ) 0).t.set 0
        ((Agent.init 2 (0 : ℚ) 0).t.getD 0 0 + 1) ∧
    (⟨0, 0, 0, [1, 1], [3, 4]⟩ : AgentState ℚ).t.sum =
      (Agent.init 2 (0 : ℚ) 0).t.sum +
        ([((0 : ℤ), (3 : ℚ)), ((1 : ℤ), 4)]).length := by
  have hu : updateQ (Agent.init 2 (0 : ℚ) 0) ((0 : ℕ) : ℤ) 3 =
      some ⟨0, 0, 0, [1, 0], [3, 0]⟩ := by
    norm_num [updateQ, resolveIdx, annealStep, Agent.init, List.replicate,
      List.set, List.getD]
  have hrun : runUpdates (Agent.init 2 (0 : ℚ) 0)
      [((0 : ℤ), (3 : ℚ)), ((1 : ℤ), 4)] =
      some ⟨0, 0, 0, [1, 1], [3, 4]⟩ := by
    norm_num [runUpdates, updateQ, resolveIdx, annealStep, Agent.init,
      List.replicate, List.set, List.getD]
  refine ⟨(pullCounts_increment_invariant (K := ℚ) 2).1
      (Agent.init 2 (0 : ℚ) 0) _ 0 3 (by norm_num [Agent.init]) hu, ?_⟩
  exact ((pullCounts_increment_invariant (K := ℚ) 2).2.2.2.1
    (Agent.init 2 (0 : ℚ) 0) _ _ hrun).1

/-- C7: for `UCBAgent` with `N = 4` arms, driven by the standard call
pair each round, the first four calls to `selectAction` return
`0, 1, 2, 3` in order, whatever the confidence multiplier and whatever
rewards the intervening updates receive: while `t < N` the selection is
the warm-up branch `return t`, which never reads `Q`. -/
theorem ucb_warmup_first_four (c r0 r1 r2 r3 : ℝ) :
    ucbTrace 4 (UCBAgent.init 4 c) [r0, r1, r2, r3] = some [0, 1, 2, 3] := by
  simp [ucbTrace, ucbGetAction, updateQ, resolveIdx, annealStep,
    UCBAgent.init, Agent.init, List.replicate, List.set, List.getD]

/-! ### ExploreCommit with `N = 3`, `m = 2` (claim C1)

With `t = sum(pullCounts)` starting at `0`, the source explores while
`t <= m*N = 6` — that is for the first seven calls, `t = 0..6` — and
computes the committed argmax at the eighth call, when `t = 7 = m*N + 1`.
-/

theorem ecGetAction_explore (s : ECState K) (hm : s.base.param = 2)
    (h : s.base.t.sum ≤ 6) :
    ecGetAction s 3 = (s, s.base.t.sum % 3) := by
  have hcond : ((s.base.t.sum : ℕ) : K) ≤ s.base.param * ((3 : ℕ) : K) := by
    rw [hm]
    calc ((s.base.t.sum : ℕ) : K) ≤ ((6 : ℕ) : K) := Nat.cast_le.mpr h
      _ = 2 * ((3 : ℕ) : K) := by push_cast; norm_num
  rw [ecGetAction, if_pos hcond]

theorem ecGetAction_commit1 (s : ECState K) (hm : s.base.param = 2)
    (h : s.base.t.sum = 7) :
    ecGetAction s 3 =
      ({ s with final_choice := argmax s.base.Q }, argmax s.base.Q) := by
  have hc1 : ¬ ((s.base.t.sum : ℕ) : K) ≤ s.base.param * ((3 : ℕ) : K) := by
    rw [hm, h]
    intro hc
    have h2 : ((7 : ℕ) : K) ≤ ((6 : ℕ) : K) := by
      rw [show ((6 : ℕ) : K) = 2 * ((3 : ℕ) : K) by push_cast; norm_num]
      exact hc
    have := Nat.cast_le.mp h2
    omega
  have hc2 : ((s.base.t.sum : ℕ) : K) = s.base.param * ((3 : ℕ) : K) + 1 := by
    rw [hm, h]
    push_cast
    norm_num
  rw [ecGetAction, if_neg hc1, if_pos hc2]

theorem ecGetAction_commit (s : ECState K) (hm : s.base.param = 2)
    (h : 8 ≤ s.base.t.sum) :
    ecGetAction s 3 = (s, s.final_choice) := by
  have hc1 : ¬ ((s.base.t.sum : ℕ) : K) ≤ s.base.param * ((3 : ℕ) : K) := by
    rw [hm]
    intro hc
    have h2 : ((s.base.t.sum : ℕ) : K) ≤ ((6 : ℕ) : K) := by
      rw [show ((6 : ℕ) : K) = 2 * ((3 : ℕ) : K) by push_cast; norm_num]
      exact hc
    have := Nat.cast_le.mp h2
    omega
  have hc2 : ¬ ((s.base.t.sum : ℕ) : K) = s.base.param * ((3 : ℕ) : K) + 1 := by
    rw [hm]
    intro hc
    have h2 : ((s.base.t.sum : ℕ) : K) = ((7 : ℕ) : K) := by
      rw [hc]
      push_cast
      norm_num
    have := Nat.cast_injective h2
    omega
  rw [ecGetAction, if_neg hc1, if_neg hc2]

theorem ecStep_explore (s : ECState K) (r : K) (hm : s.base.param = 2)
    (ha0 : s.base.anneal = 0) (h : s.base.t.sum ≤ 6)
    (hlen : s.base.t.length = 3) (hQlen : s.base.Q.length = 3) :
    ∃ s1, ecStep 3 r s = some s1 ∧
      s1.base.t.sum = s.base.t.sum + 1 ∧
      s1.base.t.length = 3 ∧ s1.base.Q.length = 3 ∧
      s1.base.param = 2 ∧ s1.base.anneal = 0 ∧
      s1.final_choice = s.final_choice := by
  have ha : s.base.t.sum % 3 < s.base.t.length := by
    rw [hlen]
    exact Nat.mod_lt _ (by norm_num)
  rw [ecStep]
  simp only [ecGetAction_explore s hm h]
  rw [updateQ_natCast s.base r ha, Option.map_some']
  refine ⟨_, rfl, ?_, ?_, ?_, ?_, ?_, rfl⟩
  · exact sum_set_succ _ _ ha
  · rw [List.length_set, hlen]
  · rw [List.length_set, hQlen]
  · rw [ha0, annealStep_zero, hm]
  · exact ha0

theorem ecStep_commit1 (s : ECState K) (r : K) (hm : s.base.param = 2)
    (ha0 : s.base.anneal = 0) (h : s.base.t.sum = 7)
    (hlen : s.base.t.length = 3) (hQlen : s.base.Q.length = 3) :
    ∃ s1, ecStep 3 r s = some s1 ∧
      s1.base.t.sum = s.base.t.sum + 1 ∧
      s1.base.t.length = 3 ∧ s1.base.Q.length = 3 ∧
      s1.base.param = 2 ∧ s1.base.anneal = 0 ∧
      s1.final_choice = argmax s.base.Q ∧ argmax s.base.Q < 3 := by
  have hQne : s.base.Q ≠ [] := by
    intro hc
    rw [hc] at hQlen
    simp at hQlen
  have hc3 : argmax s.base.Q < 3 := hQlen ▸ argmax_lt_length hQne
  have ha : argmax s.base.Q < s.base.t.length := by omega
  rw [ecStep]
  simp only [ecGetAction_commit1 s hm h]
  rw [updateQ_natCast _ r ha, Option.map_some']
  refine ⟨_, rfl, ?_, ?_, ?_, ?_, ?_, rfl, hc3⟩
  · exact sum_set_succ _ _ ha
  · rw [List.length_set, hlen]
  · rw [List.length_set, hQlen]
  · rw [ha0, annealStep_zero, hm]
  · exact ha0

theorem ecStep_commit (s : ECState K) (r : K) (hm : s.base.param = 2)
    (ha0 : s.base.anneal = 0) (h : 8 ≤ s.base.t.sum)
    (hlen : s.base.t.length = 3) (hQlen : s.base.Q.length = 3)
    (hfc : s.final_choice < 3) :
    ∃ s1, ecStep 3 r s = some s1 ∧
      s1.base.t.sum = s.base.t.sum + 1 ∧
      s1.base.t.length = 3 ∧ s1.base.Q.length = 3 ∧
      s1.base.param = 2 ∧ s1.base.anneal = 0 ∧
      s1.final_choice = s.final_choice := by
  have ha : s.final_choice < s.base.t.length := by omega
  rw [ecStep]
  simp only [ecGetAction_commit s hm h]
  rw [updateQ_natCast s.base r ha, Option.map_some']
  refine ⟨_, rfl, ?_, ?_, ?_, ?_, ?_, rfl⟩
  · exact sum_set_succ _ _ ha
  · rw [List.length_set, hlen]
  · rw [List.length_set, hQlen]
  · rw [ha0, annealStep_zero, hm]
  · exact ha0

/-- During the exploration phase (`n ≤ 7` driver rounds) the state is
defined, holds `n` total pulls, three-element arrays, `param = 2` and
`anneal = 0`. -/
theorem ecState_phase (rs : ℕ → K) :
    ∀ n ≤ 7, ∃ s, ecState 3 2 rs n = some s ∧
      s.base.t.sum = n ∧ s.base.t.length = 3 ∧ s.base.Q.length = 3 ∧
      s.base.param = 2 ∧ s.base.anneal = 0 := by
  intro n
  induction n with
  | zero =>
    intro _
    exact ⟨ECAgent.init 3 2, rfl, by simp [ECAgent.init, Agent.init],
      by simp [ECAgent.init, Agent.init], by simp [ECAgent.init, Agent.init],
      rfl, rfl⟩
  | succ n ih =>
    intro hn7
    obtain ⟨s, hs, h1, h2, h3, h4, h5⟩ := ih (by omega)
    obtain ⟨s1, hstep, g1, g2, g3, g4, g5, -⟩ :=
      ecStep_explore s (rs n) h4 h5 (by omega) h2 h3
    refine ⟨s1, ?_, by omega, g2, g3, g4, g5⟩
    rw [ecState, hs, Option.some_bind, hstep]

/-- C1, counterexample: drive ExploreCommit (`N = 3`, `m = 2`) with
rewards `0,1,0,0,1,0` in the first six rounds, so that the estimates
after six updates are `[0, 1, 0]` with argmax `1`.  The seventh call to
`selectAction` returns `0`, not that argmax: the source explores while
`t ≤ m·N`, which spans the first seven calls (`t = 0..6`), not six. -/
theorem exploreCommit_seventh_call_not_argmax :
    ecActionAt 3 (2 : ℚ) (fun i => [0, 1, 0, 0, 1, 0, 0].getD i 0) 6 =
      some 0 ∧
    (ecState 3 (2 : ℚ) (fun i => [0, 1, 0, 0, 1, 0, 0].getD i 0) 6).map
      (fun s => argmax s.base.Q) = some 1 := by
  norm_num [ecActionAt, ecState, ecStep, ecGetAction, ECAgent.init,
    Agent.init, updateQ, resolveIdx, annealStep, List.replicate, List.set,
    List.getD, argmax, argmaxGo]

/-- C1 (amended): for ExploreCommit with `N = 3`, `m = 2`, driven by the
standard call pair each round, the first seven calls to `selectAction`
return `0,1,2,0,1,2,0` (round-robin for `t = 0..6`, since the source
explores while `t ≤ m·N`); the eighth call returns
`argmax(valueEstimate)` over the seven accumulated rewards (first-index
tie-break), and every subsequent call returns that same fixed index. -/
theorem exploreCommit_roundRobin_commit (rs : ℕ → K) :
    (∀ n < 7, ecActionAt 3 2 rs n = some (n % 3)) ∧
    ecActionAt 3 2 rs 7 =
      (ecState 3 2 rs 7).map (fun s => argmax s.base.Q) ∧
    (∀ k, 8 ≤ k → ecActionAt 3 2 rs k = ecActionAt 3 2 rs 7) := by
  have h7 := ecState_phase rs 7 le_rfl
  obtain ⟨s7, hs7, p1, p2, p3, p4, p5⟩ := h7
  obtain ⟨s8, hstep8, q1, q2, q3, q4, q5, q6, q7⟩ :=
    ecStep_commit1 s7 (rs 7) p4 p5 p1 p2 p3
  have hact7 : ecActionAt 3 2 rs 7 = some (argmax s7.base.Q) := by
    rw [ecActionAt, hs7, Option.map_some', ecGetAction_commit1 s7 p4 p1]
  have hcommit : ∀ j, ∃ s, ecState 3 2 rs (8 + j) = some s ∧
      s.base.t.sum = 8 + j ∧ s.base.t.length = 3 ∧ s.base.Q.length = 3 ∧
      s.base.param = 2 ∧ s.base.anneal = 0 ∧
      s.final_choice = argmax s7.base.Q := by
    intro j
    induction j with
    | zero =>
      refine ⟨s8, ?_, by omega, q2, q3, q4, q5, q6⟩
      rw [ecState, hs7, Option.some_bind, hstep8]
    | succ j ihj =>
      obtain ⟨s, hs, h1, h2, h3, h4, h5, h6⟩ := ihj
      obtain ⟨s1, hstep, g1, g2, g3, g4, g5, g6⟩ :=
        ecStep_commit s (rs (8 + j)) h4 h5 (by omega) h2 h3 (by omega)
      refine ⟨s1, ?_, by omega, g2, g3, g4, g5, by rw [g6, h6]⟩
      show (ecState 3 2 rs (8 + j)).bind (ecStep 3 (rs (8 + j))) = some s1
      rw [hs, Option.some_bind, hstep]
  refine ⟨?_, ?_, ?_⟩
  · intro n hn
    obtain ⟨s, hs, h1, h2, h3, h4, h5⟩ := ecState_phase rs n (by omega)
    rw [ecActionAt, hs, Option.map_some',
      ecGetAction_explore s h4 (by omega), h1]
  · rw [hact7, hs7, Option.map_some']
  · intro k hk
    obtain ⟨s, hs, h1, h2, h3, h4, h5, h6⟩ := hcommit (k - 8)
    have hk8 : 8 + (k - 8) = k := by omega
    rw [hk8] at hs h1
    rw [ecActionAt, hs, Option.map_some',
      ecGetAction_commit s h4 (by omega), h6, hact7]

/-- Witness for C1 (amended) at a concrete input: all-zero rewards, the
fifth call (round index 4) and the tenth call (round index 9). -/
theorem exploreCommit_roundRobin_commit_witness :
    ecActionAt 3 (2 : ℚ) (fun _ => 0) 4 = some (4 % 3) ∧
    ecActionAt 3 (2 : ℚ) (fun _ => 0) 9 =
      ecActionAt 3 (2 : ℚ) (fun _ => 0) 7 :=
  ⟨(exploreCommit_roundRobin_commit (fun _ => 0)).1 4 (by norm_num),
    (exploreCommit_roundRobin_commit (fun _ => 0)).2.2 9 (by norm_num)⟩

end Bandit

